import Mathlib

/-
  Verification of the reaction-rate algebra engine of crnpy (src/crnpy/reaction.py).

  Symbolic rational expressions are embedded as pairs of term-list polynomials
  over `N` commutative symbols (species and kinetic parameters together):
  a polynomial is a list of (integer coefficient, exponent vector) addends,
  exactly the addend structure of an expanded sympy expression (integer
  coefficients suffice: the embedded operations only add, negate and multiply
  coefficients, never divide them).  The semantic
  value of such a list is its image in `MvPolynomial (Fin N) ℤ`; sympy's
  `(e).cancel() == 0` test on a rational expression num/den is faithfully
  `toMv num = 0`, and equality of two rational expressions after `cancel`
  is cross-multiplied equality of the semantic values.

  The `Complex` collaborator (crncomplex.py, not part of the repository slice
  under verification; its interface is fixed by the spec) is modelled from the
  spec: a multiset of species, i.e. an exponent vector `Fin N → ℕ`, with
  pointwise `+`, clipped `-`, pointwise-min `&`, membership = positive
  coefficient, and `ma()` = the monomial with those exponents.  The engine's
  `del`-discipline keeps coefficients positive, so "entry absent" and
  "coefficient zero" coincide in this representation.
-/

namespace Crnpy

/-- Exponent vector of a monomial over `N` symbols. Also the data of a
stoichiometric `Complex` (species ↦ coefficient), modelled from the spec. -/
abbrev Mon (N : ℕ) : Type := Fin N → ℕ

/-- A polynomial as a list of addends, each a coefficient with a monomial:
the addend structure of a sympy expression after `expand`. -/
abbrev Poly (N : ℕ) : Type := List (ℤ × Mon N)

def monOne (N : ℕ) : Mon N := fun _ => 0

/-- Product of two terms (sympy `Mul` of two monomial terms). -/
def tmul {N : ℕ} (a b : ℤ × Mon N) : ℤ × Mon N := (a.1 * b.1, fun v => a.2 v + b.2 v)

/-- Sum of two polynomials (sympy `Add`). -/
def padd {N : ℕ} (p q : Poly N) : Poly N := p ++ q

/-- Product of two polynomials, distributing term by term. -/
def pmul {N : ℕ} : Poly N → Poly N → Poly N
  | [], _ => []
  | t :: p, q => (q.map (tmul t)) ++ pmul p q

/-- Negation of a polynomial. -/
def pneg {N : ℕ} (p : Poly N) : Poly N := p.map (fun t => (-t.1, t.2))

def pzero (N : ℕ) : Poly N := []

def pone (N : ℕ) : Poly N := [(1, monOne N)]

/-- Collect one more term into a collected term list, merging equal monomials
and dropping zero coefficients (sympy `Add` automatic collection). -/
def addTermAux {N : ℕ} : Poly N → ℤ → Mon N → Poly N
  | [], c, m => if c = 0 then [] else [(c, m)]
  | t :: rest, c, m =>
    if t.2 = m then (if t.1 + c = 0 then rest else (t.1 + c, m) :: rest)
    else t :: addTermAux rest c m

/-- Collected form of a polynomial: like monomials merged, zero terms dropped.
Its length is the number of addends of the expanded sympy expression. -/
def pnorm {N : ℕ} (p : Poly N) : Poly N := p.foldl (fun acc t => addTermAux acc t.1 t.2) []

/-- Semantic value of a term in `MvPolynomial (Fin N) ℤ`. -/
noncomputable def termMv {N : ℕ} (t : ℤ × Mon N) : MvPolynomial (Fin N) ℤ :=
  MvPolynomial.C t.1 * ∏ v : Fin N, MvPolynomial.X v ^ t.2 v

/-- Semantic value of a polynomial. -/
noncomputable def toMv {N : ℕ} (p : Poly N) : MvPolynomial (Fin N) ℤ := (p.map termMv).sum

theorem toMv_nil {N : ℕ} : toMv ([] : Poly N) = 0 := rfl

theorem toMv_cons {N : ℕ} (t : ℤ × Mon N) (p : Poly N) :
    toMv (t :: p) = termMv t + toMv p := by
  simp [toMv]

theorem toMv_append {N : ℕ} (p q : Poly N) : toMv (p ++ q) = toMv p + toMv q := by
  simp [toMv]

theorem toMv_padd {N : ℕ} (p q : Poly N) : toMv (padd p q) = toMv p + toMv q :=
  toMv_append p q

theorem termMv_tmul {N : ℕ} (a b : ℤ × Mon N) :
    termMv (tmul a b) = termMv a * termMv b := by
  simp only [termMv, tmul, map_mul, pow_add, Finset.prod_mul_distrib]
  ring

theorem toMv_map_tmul {N : ℕ} (t : ℤ × Mon N) (q : Poly N) :
    toMv (q.map (tmul t)) = termMv t * toMv q := by
  induction q with
  | nil => simp [toMv]
  | cons s q ih =>
    simp only [List.map_cons, toMv_cons, ih, termMv_tmul, mul_add]

theorem toMv_pmul {N : ℕ} (p q : Poly N) : toMv (pmul p q) = toMv p * toMv q := by
  induction p with
  | nil => simp [pmul, toMv]
  | cons t p ih =>
    simp only [pmul, toMv_append, toMv_map_tmul, ih, toMv_cons, add_mul]

theorem toMv_pneg {N : ℕ} (p : Poly N) : toMv (pneg p) = -toMv p := by
  induction p with
  | nil => simp [pneg, toMv]
  | cons t p ih =>
    simp only [pneg, List.map_cons, toMv_cons] at *
    rw [ih]
    simp only [termMv, neg_add, map_neg]
    ring

theorem toMv_pone {N : ℕ} : toMv (pone N) = 1 := by
  simp [pone, toMv, termMv, monOne]

theorem termMv_addCoeff {N : ℕ} (c d : ℤ) (m : Mon N) :
    termMv (c + d, m) = termMv (c, m) + termMv (d, m) := by
  simp [termMv, map_add, add_mul]

theorem termMv_zeroCoeff {N : ℕ} (m : Mon N) : termMv ((0 : ℤ), m) = 0 := by
  simp [termMv]

theorem toMv_addTermAux {N : ℕ} (p : Poly N) (c : ℤ) (m : Mon N) :
    toMv (addTermAux p c m) = toMv p + termMv (c, m) := by
  induction p with
  | nil =>
    by_cases hc : c = 0 <;> simp [addTermAux, hc, toMv_cons, termMv_zeroCoeff, toMv]
  | cons t rest ih =>
    by_cases hm : t.2 = m
    · by_cases hz : t.1 + c = 0
      · simp only [addTermAux, hm, if_true, hz, if_true, toMv_cons]
        have : termMv t + toMv rest + termMv (c, m) = toMv rest + termMv (t.1 + c, m) := by
          rw [termMv_addCoeff]
          have ht : termMv t = termMv (t.1, m) := by rw [← hm]
          rw [ht]; ring
        rw [this, hz, termMv_zeroCoeff, add_zero]
      · simp only [addTermAux, hm, if_true, hz, if_false, toMv_cons]
        rw [termMv_addCoeff]
        have ht : termMv t = termMv (t.1, m) := by rw [← hm]
        rw [ht]; ring
    · simp only [addTermAux, hm, if_false, toMv_cons, ih]
      ring

theorem toMv_foldl_addTerm {N : ℕ} (p : Poly N) (acc : Poly N) :
    toMv (p.foldl (fun acc t => addTermAux acc t.1 t.2) acc) = toMv acc + toMv p := by
  induction p generalizing acc with
  | nil => simp only [List.foldl_nil, toMv_nil, add_zero]
  | cons t p ih =>
    simp only [List.foldl_cons, ih, toMv_addTermAux, toMv_cons]
    ring

theorem toMv_pnorm {N : ℕ} (p : Poly N) : toMv (pnorm p) = toMv p := by
  simp only [pnorm, toMv_foldl_addTerm, toMv_nil, zero_add]

/-- A symbolic rational expression, kept as a numerator/denominator pair of
polynomials: the result of sympy `as_numer_denom`. -/
structure Rat2 (N : ℕ) where
  num : Poly N
  den : Poly N

instance {N : ℕ} : DecidableEq (Rat2 N) := fun a b =>
  decidable_of_iff (a.num = b.num ∧ a.den = b.den) (by cases a; cases b; simp)

def ratZero (N : ℕ) : Rat2 N := ⟨pzero N, pone N⟩

def ratMul {N : ℕ} (a b : Rat2 N) : Rat2 N := ⟨pmul a.num b.num, pmul a.den b.den⟩

def ratDiv {N : ℕ} (a b : Rat2 N) : Rat2 N := ⟨pmul a.num b.den, pmul a.den b.num⟩

def ratAdd {N : ℕ} (a b : Rat2 N) : Rat2 N :=
  ⟨padd (pmul a.num b.den) (pmul b.num a.den), pmul a.den b.den⟩

def ratSub {N : ℕ} (a b : Rat2 N) : Rat2 N :=
  ⟨padd (pmul a.num b.den) (pmul (pneg b.num) a.den), pmul a.den b.den⟩

/-- Simplification by `cancel`: like terms of numerator and denominator are
collected.  (The gcd reduction sympy's `cancel` also performs is value
preserving and is not needed by any claim settled over this embedding; the
structural effect of that reduction is modelled separately where a claim
depends on it.) -/
def ratCancel {N : ℕ} (a : Rat2 N) : Rat2 N := ⟨pnorm a.num, pnorm a.den⟩

/-- Rational expression `e` with `e.cancel() == 0`: the numerator is the zero
polynomial. -/
def rateEqZero {N : ℕ} (e : Rat2 N) : Prop := toMv e.num = 0

/-- Mass-action monomial `ma()` of a complex, as a rational expression:
the product of each symbol raised to its stoichiometric coefficient.
Modelled from the spec (crncomplex.Complex.ma is outside the source slice). -/
def maRat {N : ℕ} (m : Mon N) : Rat2 N := ⟨[(1, m)], pone N⟩

/-- Reaction with an attached rate (reaction.py, class Reaction): a string id,
reactant and product complexes, a rate, and the derived kinetic parameter. -/
structure Reaction (N : ℕ) where
  reactionid : String
  reactant : Mon N
  product : Mon N
  rate : Rat2 N
  kinetic_param : Rat2 N

instance {N : ℕ} : DecidableEq (Reaction N) := fun a b =>
  decidable_of_iff (a.reactionid = b.reactionid ∧ a.reactant = b.reactant
    ∧ a.product = b.product ∧ a.rate = b.rate ∧ a.kinetic_param = b.kinetic_param)
    (by cases a; cases b; simp)

/-- Constructor `Reaction(reactionid, reactant, product, rate)`: the `_rate`
setter derives `kinetic_param = rate / reactant.ma()`. -/
def mkReaction {N : ℕ} (id : String) (re pr : Mon N) (rate : Rat2 N) : Reaction N :=
  ⟨id, re, pr, rate, ratDiv rate (maRat re)⟩

def rxnKey {N : ℕ} (r : Reaction N) : Mon N × Mon N := (r.reactant, r.product)

/-- Reaction.__eq__: reactant and product complexes equal and the difference
of the rates cancels to zero. -/
def reactionEq {N : ℕ} (r s : Reaction N) : Prop :=
  r.reactant = s.reactant ∧ r.product = s.product ∧ rateEqZero (ratSub r.rate s.rate)

/-- Reaction.remove_react_prod: remove common species between reactant and
product; with a species given, only that species.  The three `if`s of the
source read the snapshot coefficients taken before any mutation.  Afterwards
the kinetic parameter is recomputed from the new reactant. -/
def remove_react_prod {N : ℕ} (r : Reaction N) (species : Option (Fin N)) : Reaction N :=
  match species with
  | none =>
    let common : Mon N := fun v => min (r.reactant v) (r.product v)
    let re : Mon N := fun v => r.reactant v - common v
    let pr : Mon N := fun v => r.product v - common v
    ⟨r.reactionid, re, pr, r.rate, ratDiv r.rate (maRat re)⟩
  | some s =>
    let a := r.reactant s
    let b := r.product s
    if 1 ≤ a ∧ 1 ≤ b then
      let st0 := (r.reactant, r.product)
      let st1 := if b < a then (Function.update st0.1 s (a - b), Function.update st0.2 s 0)
                 else st0
      let st2 := if a < b then (Function.update st1.1 s 0, Function.update st1.2 s (b - a))
                 else st1
      let st3 := if a = b then (Function.update st2.1 s 0, Function.update st2.2 s 0)
                 else st2
      ⟨r.reactionid, st3.1, st3.2, r.rate, ratDiv r.rate (maRat st3.1)⟩
    else ⟨r.reactionid, r.reactant, r.product, r.rate, ratDiv r.rate (maRat r.reactant)⟩

/-- _split_reaction: one reaction per addend of the expanded rate numerator.
`pnorm` of the numerator is the addend list of the sympy `expand`; the
numerator is an `Add` exactly when it has at least two addends. -/
def split_reaction {N : ℕ} (r : Reaction N) : List (Reaction N) :=
  let ratenumer := pnorm r.rate.num
  let ratedenom := r.rate.den
  if 2 ≤ ratenumer.length then
    ratenumer.enum.map (fun p =>
      mkReaction (r.reactionid ++ "_" ++ toString p.1) r.reactant r.product
        ⟨[p.2], ratedenom⟩)
  else [r]

/-- String id concatenation "".join(ids) over a member list. -/
def joinIds {N : ℕ} (ms : List (Reaction N)) : String :=
  ms.foldl (fun acc m => acc ++ m.reactionid) ""

/-- Python sum of the member rates, folding `+` from 0. -/
def sumRates {N : ℕ} (ms : List (Reaction N)) : Rat2 N :=
  ms.foldl (fun acc m => ratAdd acc m.rate) (ratZero N)

/-- One grouping step of merge_reactions' defaultdict: append the reaction to
the entry holding its (reactant, product) key, or open a new entry at the end. -/
def groupIns {N : ℕ} :
    List ((Mon N × Mon N) × List (Reaction N)) → Reaction N →
    List ((Mon N × Mon N) × List (Reaction N))
  | [], r => [(rxnKey r, [r])]
  | e :: es, r => if e.1 = rxnKey r then (e.1, e.2 ++ [r]) :: es else e :: groupIns es r

/-- The defaultdict of merge_reactions: key = (sorted reactant items, sorted
product items) — with positive-coefficient complexes this is exactly the pair
of exponent vectors — entries in key first-occurrence order, members in input
order. -/
def groupRxns {N : ℕ} (rs : List (Reaction N)) :
    List ((Mon N × Mon N) × List (Reaction N)) :=
  rs.foldl groupIns []

/-- Stable insertion into a list sorted by reaction id. -/
def insById {N : ℕ} (r : Reaction N) : List (Reaction N) → List (Reaction N)
  | [] => [r]
  | x :: xs => if r.reactionid ≤ x.reactionid then r :: x :: xs else x :: insById r xs

/-- Python `sorted(· , key = reactionid)` (stable). -/
def sortById {N : ℕ} (l : List (Reaction N)) : List (Reaction N) :=
  l.foldr insById []

/-- Emission step of merge_reactions for one group entry: when the shared
reactant differs from the shared product, build the merged reaction with the
concatenated ids and the cancelled sum of the member rates; a self-loop
group is dropped. -/
def mergeF {N : ℕ} (e : (Mon N × Mon N) × List (Reaction N)) : Option (Reaction N) :=
  if e.1.1 ≠ e.1.2
  then some (mkReaction (joinIds e.2) e.1.1 e.1.2 (ratCancel (sumRates e.2)))
  else none

/-- merge_reactions: group by (reactant, product); emit one reaction per group
whose reactant differs from its product, with concatenated ids and the
cancelled sum of the member rates; sort the result by id. -/
def merge_reactions {N : ℕ} (rs : List (Reaction N)) : List (Reaction N) :=
  sortById ((groupRxns rs).filterMap mergeF)

/-- Simple deterministic rendering of a complex (species exponent vector).
Modelled from the spec: Complex.__str__ lives in the excluded collaborator;
no settled claim depends on the concrete string, only on the rendering being
a fixed function of the complex. -/
def strMon {N : ℕ} (m : Mon N) : String :=
  (List.finRange N).foldl (fun acc v => acc ++ toString (m v) ++ ".") ""

/-- Id suffix `str(c)` with spaces removed, `+` → `_`, `-` → `m` (translate). -/
def sanitizeMon {N : ℕ} (c : Mon N) : String := strMon c

/-- translate(reaction, c): add `c` to both reactant and product, keep the
rate, and extend the id by the sanitized rendering of `c`. -/
def translate {N : ℕ} (r : Reaction N) (c : Mon N) : Reaction N :=
  mkReaction (r.reactionid ++ "_" ++ sanitizeMon c)
    (fun v => r.reactant v + c v) (fun v => r.product v + c v) r.rate

/-- functools.reduce with no initializer: raises TypeError on an empty
sequence, hence `none` there. -/
def reduceOpt {α : Type} (f : α → α → α) : List α → Option α
  | [] => none
  | x :: xs => some (xs.foldl f x)

/-- reaction_path(reactions): for each position `h`, the sum (by `reduce`)
of every earlier product and every later reactant; subtract the pointwise
minimum (`&`, again by `reduce`) of these from each, and translate each
reaction by its addition.  Either `reduce` fails (TypeError) when handed an
empty sequence. -/
def reaction_path {N : ℕ} (rs : List (Reaction N)) :
    Option (List (Reaction N) × List (Mon N)) := do
  let additions ← (List.range rs.length).mapM (fun h =>
    reduceOpt (fun a b => fun v => a v + b v)
      (((rs.take h).map Reaction.product) ++ ((rs.drop (h + 1)).map Reaction.reactant)))
  let c ← reduceOpt (fun a b => fun v => min (a v) (b v)) additions
  let additions := additions.map (fun a => fun v => a v - c v)
  return ((rs.zip additions).map (fun p => translate p.1 p.2), additions)

/-- First-occurrence insertion used to count the distinct keys of
sympy's `Poly(..., *species).as_dict()`. -/
def insNew {α : Type} [DecidableEq α] (l : List α) (x : α) : List α :=
  if x ∈ l then l else l ++ [x]

/-- Number of distinct monomials of `p` in the symbols `sp`: the size of
`Poly(p, *sp).as_dict()`. Terms of the expanded numerator are grouped by
their exponent pattern on `sp`. -/
def monomCount {N : ℕ} (p : Poly N) (sp : List (Fin N)) : ℕ :=
  (((pnorm p).map (fun t => sp.map t.2)).foldl insNew []).length

/-- _split_reaction_monom, under Python 3: `species = map(sympify, species)`
builds an iterator, which `sp.Poly(ratenumer, *species)` consumes; when the
rate has more than one monomial the loop then evaluates `species[r]`, and
subscripting an exhausted map iterator raises TypeError.  With at most one
monomial the loop body never runs and `[reaction]` is returned. -/
def split_reaction_monom {N : ℕ} (r : Reaction N) (species : List (Fin N)) :
    Except String (List (Reaction N)) :=
  let cancelled := ratCancel r.rate
  let ratenumer := pnorm cancelled.num
  if 1 < monomCount ratenumer species then
    .error "TypeError: map object is not subscriptable"
  else .ok [r]

/-- Reaction as seen by the presentation methods: the rate may be absent
(`None`), and the kinetic parameter is only set when a rate was given. -/
structure FReaction (N : ℕ) where
  reactionid : String
  reactant : Mon N
  product : Mon N
  rate : Option (Rat2 N)
  kinetic_param : Option (Rat2 N)

instance {N : ℕ} : DecidableEq (FReaction N) := fun a b =>
  decidable_of_iff (a.reactionid = b.reactionid ∧ a.reactant = b.reactant
    ∧ a.product = b.product ∧ a.rate = b.rate ∧ a.kinetic_param = b.kinetic_param)
    (by cases a; cases b; simp)

/-- Constructor for a presentation reaction: the `_rate` setter only derives
the kinetic parameter when the rate is not None. -/
def mkFReaction {N : ℕ} (id : String) (re pr : Mon N) (rate : Option (Rat2 N)) :
    FReaction N :=
  ⟨id, re, pr, rate, rate.map (fun rt => ratDiv rt (maRat re))⟩

/-- Python truthiness of `self.rate`: None is falsy, and a sympy expression
is falsy exactly when it is the zero expression (no addends). -/
def truthyRate {N : ℕ} : Option (Rat2 N) → Bool
  | none => false
  | some rt => !(pnorm rt.num).isEmpty

/-- Simple deterministic rendering of a rational expression (`str`).  Only
its determinism matters to the settled claims. -/
def strRat {N : ℕ} (e : Rat2 N) : String :=
  (e.num.foldl (fun acc t => acc ++ toString t.1 ++ strMon t.2) "n") ++
  (e.den.foldl (fun acc t => acc ++ toString t.1 ++ strMon t.2) "d")

/-- Reaction.format_kinetics: None when no (truthy) rate is attached,
otherwise the rendered rate or kinetic parameter.  Rational coefficients are
exact, so the sympy `Float` branch does not arise in this embedding.  The
kinetic parameter is read only under the rate-truthiness guard, where the
constructor has set it. -/
def format_kinetics {N : ℕ} (r : FReaction N) (rate : Bool) : Option String :=
  match r.rate, r.kinetic_param with
  | some rt, some kp =>
    if (pnorm rt.num).isEmpty then none
    else some (if rate then strRat rt else strRat kp)
  | _, _ => none

/-- Reaction.format: "id: reactant ->(k) product", with the parenthesised
kinetics elided when the rate is falsy. -/
def formatReaction {N : ℕ} (r : FReaction N) (rate : Bool) : String :=
  r.reactionid ++ ": " ++ strMon r.reactant ++ " ->" ++
  (if truthyRate r.rate
   then "(" ++ (format_kinetics r rate).getD "" ++ ")"
   else "") ++
  " " ++ strMon r.product

/-- Reaction for _same_denom, in the fragment where every rate denominator is
a monomial: rate = num / den with `den` an exponent vector.  The kinetic
parameter plays no role in this algorithm and is elided. -/
structure SReaction (N : ℕ) where
  reactionid : String
  reactant : Mon N
  product : Mon N
  num : Poly N
  den : Mon N

instance {N : ℕ} : DecidableEq (SReaction N) := fun a b =>
  decidable_of_iff (a.reactionid = b.reactionid ∧ a.reactant = b.reactant
    ∧ a.product = b.product ∧ a.num = b.num ∧ a.den = b.den)
    (by cases a; cases b; simp)

/-- lcm of two monomial denominators: pointwise max of exponents. -/
def lcmMon {N : ℕ} (a b : Mon N) : Mon N := fun v => max (a v) (b v)

/-- Rate expression `diff * numers[r] / commondenom` as sympy builds it, with
`diff = (commondenom / den).cancel()` a monomial: sympy's `Mul` combines the
powers of identical symbol bases automatically, so the monomial factors merge
into `1/den`; a single-term numerator merges further, a multi-term numerator
(an `Add`) does not. -/
def newRatePair {N : ℕ} (num : Poly N) (den : Mon N) : Poly N × Mon N :=
  match pnorm num with
  | [] => ([], monOne N)
  | [t] => ([(t.1, fun v => t.2 v - min (t.2 v) (den v))],
            fun v => den v - min (t.2 v) (den v))
  | _ => (num, den)

/-- _same_denom: rewrite all rates over the lcm of the denominators.
`zip(*[...])` on an empty reaction list raises (none).  In the monomial
fragment `diff` is never an `Add`, so only the single-reaction branch of the
source arises, and it keeps the reaction id. -/
def same_denom {N : ℕ} (rs : List (SReaction N)) : Option (List (SReaction N)) := do
  let commondenom ← reduceOpt lcmMon (rs.map SReaction.den)
  return rs.map (fun r =>
    if r.den = commondenom then r
    else
      let p := newRatePair r.num r.den
      ⟨r.reactionid, r.reactant, r.product, p.1, p.2⟩)

/-- Reaction in the Laurent-monomial fragment used by the stoichiometry
inference loops: the rate and the kinetic parameter are products of symbol
powers, recorded as integer exponent vectors (`rate = ∏ v ^ rateE v`).
`as_numer_denom` splits such an expression by exponent sign, and `factor`
fixes it. -/
structure BReaction (N : ℕ) where
  reactant : Fin N → ℕ
  product : Fin N → ℕ
  rateE : Fin N → ℤ
  kpE : Fin N → ℤ

instance {N : ℕ} : DecidableEq (BReaction N) := fun a b =>
  decidable_of_iff (a.reactant = b.reactant ∧ a.product = b.product
    ∧ a.rateE = b.rateE ∧ a.kpE = b.kpE) (by cases a; cases b; simp)

/-- Number of distinct symbol bases with nonzero exponent. -/
def nnzI {N : ℕ} (e : Fin N → ℤ) : ℕ := (Finset.univ.filter (fun v => e v ≠ 0)).card

/-- A coefficient-free monomial is a sympy `Mul` iff it has at least two
factors; one base with exponent 1 is a `Symbol`, with other exponent a `Pow`. -/
def isMulE {N : ℕ} (e : Fin N → ℤ) : Bool := decide (2 ≤ nnzI e)

/-- Loop state of _fix_ma: current reactant, product and remainder. -/
structure MState (N : ℕ) where
  re : Fin N → ℕ
  pr : Fin N → ℕ
  rem : Fin N → ℤ

instance {N : ℕ} : DecidableEq (MState N) := fun a b =>
  decidable_of_iff (a.re = b.re ∧ a.pr = b.pr ∧ a.rem = b.rem)
    (by cases a; cases b; simp)

/-- `sympify(s) in mulargs` for _fix_ma: the mulargs list (args of the `Mul`
plus the bases of its `Pow` args, rebuilt after every division, empty when
the remainder is no longer a `Mul`) contains the symbol `s` iff the remainder
is a `Mul` and `s` occurs with nonzero (possibly negative) exponent. -/
def maHasB {N : ℕ} (st : MState N) (s : Fin N) : Bool :=
  isMulE st.rem && decide (st.rem s ≠ 0)

/-- Loop body of _fix_ma for one species: increment the species in reactant
and product, divide the remainder by it, re-factor. -/
def maUpdate {N : ℕ} (st : MState N) (s : Fin N) : MState N :=
  ⟨Function.update st.re s (st.re s + 1),
   Function.update st.pr s (st.pr s + 1),
   Function.update st.rem s (st.rem s - 1)⟩

/-- One `for s in species` pass of _fix_ma, rechecking membership against the
freshly rebuilt mulargs before each division. -/
def maPass {N : ℕ} : List (Fin N) → MState N → MState N
  | [], st => st
  | s :: rest, st => maPass rest (if maHasB st s then maUpdate st s else st)

/-- The `while any(...)` condition of _fix_ma. -/
def maGuard {N : ℕ} (sp : List (Fin N)) (st : MState N) : Bool := sp.any (maHasB st)

/-- The (unbounded) while loop of _fix_ma, with explicit fuel: `none` means
the source loop has not finished within `fuel` passes. -/
def maLoop {N : ℕ} (sp : List (Fin N)) : ℕ → MState N → Option (MState N)
  | 0, _ => none
  | fuel + 1, st => if maGuard sp st then maLoop sp fuel (maPass sp st) else some st

/-- Positive part: exponents of the numerator of a Laurent monomial. -/
def numE {N : ℕ} (e : Fin N → ℤ) : Fin N → ℤ := fun v => max (e v) 0

/-- Reaction._fix_ma: remainder = (rate numerator / reactant.ma()).factor();
while a listed species is among the factors, add it to reactant and product
and divide it out; finally re-derive the kinetic parameter (inside the
`Mul` guard). -/
def fix_ma {N : ℕ} (fuel : ℕ) (r : BReaction N) (sp : List (Fin N)) :
    Option (BReaction N) :=
  let rem0 : Fin N → ℤ := fun v => numE r.rateE v - (r.reactant v : ℤ)
  if isMulE rem0 then
    (maLoop sp fuel ⟨r.reactant, r.product, rem0⟩).map (fun st =>
      ⟨st.re, st.pr, r.rateE, fun v => r.rateE v - (st.re v : ℤ)⟩)
  else some r

/-- Number of symbols with positive exponent in a denominator monomial. -/
def nnzN {N : ℕ} (e : Fin N → ℕ) : ℕ := (Finset.univ.filter (fun v => 1 ≤ e v)).card

/-- Loop state of _fix_denom: reactant, product, remainder (the denominator
being divided down) and the current mulargs contents as a predicate. -/
structure DState (N : ℕ) where
  re : Fin N → ℕ
  pr : Fin N → ℕ
  rem : Fin N → ℕ
  margs : Fin N → Bool

instance {N : ℕ} : DecidableEq (DState N) := fun a b =>
  decidable_of_iff (a.re = b.re ∧ a.pr = b.pr ∧ a.rem = b.rem ∧ a.margs = b.margs)
    (by cases a; cases b; simp)

/-- mulargs as rebuilt inside the _fix_denom loop: for a `Mul` the args and
`Pow` bases, otherwise `[remainder]` only when the remainder is literally a
species symbol — a single base with exponent ≥ 2 is a `Pow` and yields an
empty mulargs. -/
def dArgsLoop {N : ℕ} (rem : Fin N → ℕ) : Fin N → Bool :=
  fun v => decide (1 ≤ rem v ∧ (2 ≤ nnzN rem ∨ rem v = 1))

/-- mulargs as built once before the loop (line `[remainder] + list(args) +
...`): there a single base with any positive exponent is still found. -/
def dArgsInit {N : ℕ} (rem : Fin N → ℕ) : Fin N → Bool := fun v => decide (1 ≤ rem v)

/-- `sympify(s) in mulargs and s in self.reactant and s in self.product`. -/
def dHasB {N : ℕ} (st : DState N) (s : Fin N) : Bool :=
  st.margs s && decide (1 ≤ st.re s) && decide (1 ≤ st.pr s)

/-- Loop body of _fix_denom for one species: decrement it on both sides
(deleting at zero), divide the remainder, re-factor, rebuild mulargs. -/
def dUpdate {N : ℕ} (st : DState N) (s : Fin N) : DState N :=
  let rem1 := Function.update st.rem s (st.rem s - 1)
  ⟨Function.update st.re s (st.re s - 1),
   Function.update st.pr s (st.pr s - 1),
   rem1, dArgsLoop rem1⟩

/-- One `for s in species` pass of _fix_denom. -/
def dPass {N : ℕ} : List (Fin N) → DState N → DState N
  | [], st => st
  | s :: rest, st => dPass rest (if dHasB st s then dUpdate st s else st)

/-- The `while any(...)` condition of _fix_denom. -/
def dGuard {N : ℕ} (sp : List (Fin N)) (st : DState N) : Bool := sp.any (dHasB st)

/-- The while loop of _fix_denom with explicit fuel. -/
def dLoop {N : ℕ} (sp : List (Fin N)) : ℕ → DState N → Option (DState N)
  | 0, _ => none
  | fuel + 1, st => if dGuard sp st then dLoop sp fuel (dPass sp st) else some st

/-- Final line of _fix_denom (and the `_kinetic_param` setter chain): the
rate is rebuilt as (rate / ma') * ma', i.e. unchanged in value, and the
kinetic parameter re-derived from the new reactant. -/
def dFinish {N : ℕ} (r : BReaction N) (re pr : Fin N → ℕ) : BReaction N :=
  ⟨re, pr, r.rateE, fun v => r.rateE v - (re v : ℤ)⟩

/-- Reaction._fix_denom: remainder = denominator of the kinetic parameter;
while a listed species divides it and occurs in both reactant and product,
decrement it on both sides and divide it out; always re-derive rate and
kinetic parameter at the end. -/
def fix_denom {N : ℕ} (fuel : ℕ) (r : BReaction N) (sp : List (Fin N)) :
    Option (BReaction N) :=
  let den : Fin N → ℕ := fun v => (-(r.kpE v)).toNat
  if (List.finRange N).any (fun v => decide (1 ≤ den v)) then
    (dLoop sp fuel ⟨r.reactant, r.product, den, dArgsInit den⟩).map
      (fun st => dFinish r st.re st.pr)
  else some (dFinish r r.reactant r.product)

/-- Invariant I1 in the Laurent-monomial fragment: the kinetic parameter
times the reactant mass-action monomial is exactly the rate. -/
def I1B {N : ℕ} (r : BReaction N) : Prop :=
  ∀ v, r.kpE v + (r.reactant v : ℤ) = r.rateE v

instance (priority := 10000) optionDecEq {α : Type} [DecidableEq α] :
    DecidableEq (Option α) := fun a b =>
  match a, b with
  | none, none => isTrue rfl
  | some x, some y => decidable_of_iff (x = y) (by simp)
  | none, some _ => isFalse (fun h => Option.noConfusion h)
  | some _, none => isFalse (fun h => Option.noConfusion h)

instance i1bDec {N : ℕ} (r : BReaction N) : Decidable (I1B r) :=
  decidable_of_iff (∀ v, r.kpE v + (r.reactant v : ℤ) = r.rateE v) Iff.rfl

theorem i1_div {N : ℕ} (rt : Rat2 N) (m : Mon N) :
    rateEqZero (ratSub (ratMul (ratDiv rt (maRat m)) (maRat m)) rt) := by
  simp only [rateEqZero, ratSub, ratMul, ratDiv, maRat, toMv_padd, toMv_pmul,
    toMv_pneg, toMv_pone]
  ring

/-- Claim C1: invariant I1 holds at every externally observable point: right
after construction (the rate setter derives kinetic_param = rate/ma), and
after remove_react_prod, after a finishing _fix_ma, and after a finishing
_fix_denom, each of which re-derives the dependent quantity (in the monomial
fragment, I1 is the exponent identity kpE + reactant = rateE). -/
theorem c1_thm :
    (∀ (N : ℕ) (id : String) (re pr : Mon N) (rate : Rat2 N),
      rateEqZero (ratSub (ratMul (mkReaction id re pr rate).kinetic_param
        (maRat (mkReaction id re pr rate).reactant)) (mkReaction id re pr rate).rate))
  ∧ (∀ (N : ℕ) (r : Reaction N) (s : Option (Fin N)),
      rateEqZero (ratSub (ratMul (remove_react_prod r s).kinetic_param
        (maRat (remove_react_prod r s).reactant)) (remove_react_prod r s).rate))
  ∧ (∀ (N : ℕ) (fuel : ℕ) (r out : BReaction N) (sp : List (Fin N)),
      I1B r → fix_ma fuel r sp = some out → I1B out)
  ∧ (∀ (N : ℕ) (fuel : ℕ) (r out : BReaction N) (sp : List (Fin N)),
      fix_denom fuel r sp = some out → I1B out) := by
  refine ⟨fun N id re pr rate => i1_div rate re, fun N r s => ?_, ?_, ?_⟩
  · match s with
    | none => exact i1_div r.rate _
    | some s =>
      by_cases h : 1 ≤ r.reactant s ∧ 1 ≤ r.product s
      · simp only [remove_react_prod, h, if_true]
        exact i1_div r.rate _
      · simp only [remove_react_prod, h, if_false]
        exact i1_div r.rate _
  · intro N fuel r out sp h1 h2
    rw [fix_ma] at h2
    cases hM : isMulE (fun v => numE r.rateE v - (r.reactant v : ℤ)) with
    | true =>
      rw [hM, if_pos rfl, Option.map_eq_some'] at h2
      obtain ⟨st, _, hout⟩ := h2
      subst hout
      intro v
      simp only
      ring
    | false =>
      rw [hM, if_neg Bool.false_ne_true, Option.some_inj] at h2
      subst h2
      exact h1
  · intro N fuel r out sp h2
    rw [fix_denom] at h2
    cases hM : ((List.finRange N).any
        (fun v => decide (1 ≤ (-(r.kpE v)).toNat))) with
    | true =>
      rw [hM, if_pos rfl, Option.map_eq_some'] at h2
      obtain ⟨st, _, hout⟩ := h2
      subst hout
      intro v
      simp only [dFinish]
      ring
    | false =>
      rw [hM, if_neg Bool.false_ne_true, Option.some_inj] at h2
      subst h2
      intro v
      simp only [dFinish]
      ring

/-- Witness for C1: concrete finishing runs of _fix_ma and _fix_denom whose
outputs satisfy I1. -/
theorem c1_wit :
    I1B (⟨![0, 2, 0], ![0, 1, 1], ![1, 2, 0], ![1, 0, 0]⟩ : BReaction 3)
  ∧ I1B (⟨![1], ![1], ![0], ![-1]⟩ : BReaction 1) :=
  ⟨c1_thm.2.2.1 3 2 ⟨![0, 1, 0], ![0, 0, 1], ![1, 2, 0], ![1, 1, 0]⟩
      ⟨![0, 2, 0], ![0, 1, 1], ![1, 2, 0], ![1, 0, 0]⟩ [1] (by decide) (by decide),
   c1_thm.2.2.2 1 1 ⟨![1], ![1], ![0], ![0]⟩ ⟨![1], ![1], ![0], ![-1]⟩ [] (by decide)⟩

/-- r2: A -> B with rate k*A^2 and reactant {A: 1}; symbols 0 = k, 1 = A,
2 = B. -/
def c9r : BReaction 3 := ⟨![0, 1, 0], ![0, 0, 1], ![1, 2, 0], ![1, 1, 0]⟩

/-- Claim C9: on r2: A -> B with rate k*A^2 and reactant {A: 1},
infer_mass_action_stoichiometry({A}) terminates, updates the reactant to
{A: 2}, adds one A to the product, and leaves kinetic_param = k. -/
theorem c9_thm :
    fix_ma 2 c9r [1] = some ⟨![0, 2, 0], ![0, 1, 1], ![1, 2, 0], ![1, 0, 0]⟩ := by
  decide

/-- Malformed input for _fix_ma: rate k with reactant {A: 1} (symbols
0 = k, 1 = A): the remainder k/A^m keeps A among the Pow bases forever. -/
def c5r : BReaction 2 := ⟨![0, 1], ![0, 0], ![1, 0], ![1, -1]⟩

theorem c5aux : ∀ (fuel : ℕ) (st : MState 2),
    st.rem 0 = 1 → st.rem 1 ≤ -1 → maLoop [1] fuel st = none := by
  intro fuel
  induction fuel with
  | zero => intro st h0 h1; rfl
  | succ fuel ih =>
    intro st h0 h1
    have hmul : isMulE st.rem = true := by
      simp only [isMulE, nnzI, decide_eq_true_eq]
      have : (Finset.univ.filter (fun v => st.rem v ≠ 0)) = Finset.univ := by
        apply Finset.filter_true_of_mem
        intro v _
        match v with
        | 0 => omega
        | 1 => omega
      rw [this]
      simp
    have hguard : maGuard [1] st = true := by
      simp only [maGuard, List.any_cons, List.any_nil, Bool.or_false, maHasB, hmul,
        Bool.true_and, decide_eq_true_eq]
      omega
    have hpass : maPass [1] st = maUpdate st 1 := by
      simp only [maPass, maHasB, hmul, Bool.true_and]
      have : decide (st.rem 1 ≠ 0) = true := by simp; omega
      rw [this]
      simp [maPass]
    simp only [maLoop, hguard, if_true, hpass]
    apply ih
    · simp [maUpdate, Function.update]
      omega
    · simp [maUpdate, Function.update]
      omega

/-- Claim C5 (failing part): _fix_ma has no iteration bound and does not
terminate on malformed input: with rate k and reactant {A: 1}, no amount of
fuel finishes the loop. -/
theorem c5_thm : ∀ fuel, fix_ma fuel c5r [1] = none := by
  intro fuel
  have hmul : isMulE (fun v => numE c5r.rateE v - (c5r.reactant v : ℤ)) = true := by
    decide
  simp only [fix_ma, hmul, if_true]
  rw [c5aux fuel _ (by decide) (by decide)]
  rfl

/-- Claim C3: reaction_path with zero or one reaction: the source hands an
empty sequence to functools.reduce, which raises TypeError; the embedded
computation yields none rather than the input unchanged. -/
theorem c3_thm : ∀ (N : ℕ),
    reaction_path ([] : List (Reaction N)) = none
    ∧ ∀ r : Reaction N, reaction_path [r] = none := by
  intro N
  exact ⟨rfl, fun r => rfl⟩

/-- Input showing the _split_reaction_monom failure: rate k1*A + k2*A^2
with species list [A] (symbols 0 = k1, 1 = k2, 2 = A). -/
def c4r : Reaction 3 :=
  mkReaction "r" ![0, 0, 1] ![0, 0, 0] ⟨[(1, ![1, 0, 1]), (1, ![0, 1, 2])], pone 3⟩

/-- Same reaction with the single-monomial rate k1*A. -/
def c4r1 : Reaction 3 :=
  mkReaction "r" ![0, 0, 1] ![0, 0, 0] ⟨[(1, ![1, 0, 1])], pone 3⟩

/-- Claim C4: under Python 3, _split_reaction_monom raises TypeError whenever
the rate decomposes into more than one monomial (the species map iterator is
consumed by Poly and then subscripted); with at most one monomial it returns
[reaction] unchanged. -/
theorem c4_thm :
    split_reaction_monom c4r [2] = .error "TypeError: map object is not subscriptable"
    ∧ split_reaction_monom c4r1 [2] = .ok [c4r1] := by
  constructor
  · rfl
  · rfl

/-- Claim C10: a Reaction whose attached rate is the zero expression is
treated by format_kinetics and format exactly as if no rate were attached,
because rate presence is tested by expression truthiness. -/
theorem c10_thm : ∀ (N : ℕ) (id : String) (re pr : Mon N) (e : Rat2 N) (b : Bool),
    pnorm e.num = [] →
    format_kinetics (mkFReaction id re pr (some e)) b = none
    ∧ formatReaction (mkFReaction id re pr (some e)) b
        = formatReaction (mkFReaction id re pr none) b := by
  intro N id re pr e b h
  constructor
  · simp [format_kinetics, mkFReaction, h]
  · simp [formatReaction, mkFReaction, truthyRate, h]

/-- Witness for C10 at a concrete zero-rated reaction. -/
theorem c10_wit :
    format_kinetics (mkFReaction "r" ![1] ![0] (some ⟨[], pone 1⟩)) false = none
    ∧ formatReaction (mkFReaction "r" ![1] ![0] (some ⟨[], pone 1⟩)) false
        = formatReaction (mkFReaction "r" ![1] ![0] none) false :=
  c10_thm 1 "r" ![1] ![0] ⟨[], pone 1⟩ false rfl

/-- Claim C6: remove_react_prod with a single species rebalances only that
species: when it is present on both sides, the smaller of the two
coefficients is subtracted from both sides (the side reaching zero drops the
species; both drop it when equal), every other species is untouched, the
rate is unchanged, and kinetic_param is recomputed as rate / ma(new
reactant); when the species is absent from either side the complexes are
unchanged. -/
theorem c6_thm : ∀ (N : ℕ) (r : Reaction N) (s : Fin N),
    (1 ≤ r.reactant s → 1 ≤ r.product s →
      (remove_react_prod r (some s)).reactant s
          = r.reactant s - min (r.reactant s) (r.product s)
      ∧ (remove_react_prod r (some s)).product s
          = r.product s - min (r.reactant s) (r.product s)
      ∧ (∀ t, t ≠ s → (remove_react_prod r (some s)).reactant t = r.reactant t
            ∧ (remove_react_prod r (some s)).product t = r.product t)
      ∧ (remove_react_prod r (some s)).rate = r.rate
      ∧ (remove_react_prod r (some s)).kinetic_param
          = ratDiv r.rate (maRat (remove_react_prod r (some s)).reactant))
    ∧ (¬(1 ≤ r.reactant s ∧ 1 ≤ r.product s) →
      (remove_react_prod r (some s)).reactant = r.reactant
      ∧ (remove_react_prod r (some s)).product = r.product
      ∧ (remove_react_prod r (some s)).rate = r.rate
      ∧ (remove_react_prod r (some s)).kinetic_param
          = ratDiv r.rate (maRat r.reactant)) := by
  intro N r s
  constructor
  · intro h1 h2
    have hab : 1 ≤ r.reactant s ∧ 1 ≤ r.product s := ⟨h1, h2⟩
    simp only [remove_react_prod, if_pos hab]
    rcases Nat.lt_trichotomy (r.reactant s) (r.product s) with h | h | h
    · have hba : ¬ r.product s < r.reactant s := by omega
      have hne : ¬ r.reactant s = r.product s := by omega
      simp only [if_neg hba, if_pos h, if_neg hne]
      refine ⟨?_, ?_, ?_, trivial, trivial⟩
      · simp [Function.update_same]; omega
      · simp [Function.update_same]; omega
      · intro t ht
        simp [Function.update_noteq ht]
    · have hba : ¬ r.product s < r.reactant s := by omega
      have hab2 : ¬ r.reactant s < r.product s := by omega
      simp only [if_neg hba, if_neg hab2, if_pos h]
      refine ⟨?_, ?_, ?_, trivial, trivial⟩
      · simp [Function.update_same]; omega
      · simp [Function.update_same]; omega
      · intro t ht
        simp [Function.update_noteq ht]
    · have hab2 : ¬ r.reactant s < r.product s := by omega
      have hne : ¬ r.reactant s = r.product s := by omega
      simp only [if_pos h, if_neg hab2, if_neg hne]
      refine ⟨?_, ?_, ?_, trivial, trivial⟩
      · simp [Function.update_same]; omega
      · simp [Function.update_same]; omega
      · intro t ht
        simp [Function.update_noteq ht]
  · intro h
    simp only [remove_react_prod, if_neg h]
    exact ⟨trivial, trivial, trivial, trivial⟩

/-- Concrete reaction 2A -> A with rate x (one species, symbol 0). -/
def c6r : Reaction 1 := mkReaction "r" ![2] ![1] ⟨[(1, ![1])], pone 1⟩

/-- Witness for C6 at c6r: both sides contain the species, coefficients 2
and 1, so min 1 is subtracted from both; kinetic_param is recomputed. -/
theorem c6_wit :
    (remove_react_prod c6r (some 0)).reactant 0
        = c6r.reactant 0 - min (c6r.reactant 0) (c6r.product 0)
    ∧ (remove_react_prod c6r (some 0)).product 0
        = c6r.product 0 - min (c6r.reactant 0) (c6r.product 0)
    ∧ (remove_react_prod c6r (some 0)).rate = c6r.rate
    ∧ (remove_react_prod c6r (some 0)).kinetic_param
        = ratDiv c6r.rate (maRat (remove_react_prod c6r (some 0)).reactant) :=
  let h := (c6_thm 1 c6r 0).1 (by decide) (by decide)
  ⟨h.1, h.2.1, h.2.2.2.1, h.2.2.2.2⟩

theorem foldl_lcm_le_left {N : ℕ} :
    ∀ (ds : List (Mon N)) (a : Mon N) (v : Fin N), a v ≤ (ds.foldl lcmMon a) v := by
  intro ds
  induction ds with
  | nil => intro a v; exact le_rfl
  | cons d ds ih =>
    intro a v
    calc a v ≤ lcmMon a d v := le_max_left _ _
    _ ≤ ((d :: ds).foldl lcmMon a) v := ih (lcmMon a d) v

theorem foldl_lcm_le_mem {N : ℕ} :
    ∀ (ds : List (Mon N)) (a d : Mon N), d ∈ ds → ∀ v, d v ≤ (ds.foldl lcmMon a) v := by
  intro ds
  induction ds with
  | nil => intro a d hd; cases hd
  | cons d0 ds ih =>
    intro a d hd v
    rcases List.mem_cons.mp hd with h | h
    · subst h
      calc d v ≤ lcmMon a d v := le_max_right _ _
      _ ≤ _ := foldl_lcm_le_left ds (lcmMon a d) v
    · exact ih (lcmMon a d0) d h v

theorem reduceOpt_lcm_le {N : ℕ} (dens : List (Mon N)) (L : Mon N)
    (h : reduceOpt lcmMon dens = some L) : ∀ d ∈ dens, ∀ v, d v ≤ L v := by
  match dens with
  | [] => cases h
  | d0 :: ds =>
    simp only [reduceOpt, Option.some_inj] at h
    subst h
    intro d hd v
    rcases List.mem_cons.mp hd with h | h
    · subst h; exact foldl_lcm_le_left ds d v
    · exact foldl_lcm_le_mem ds d0 d h v

/-- Inputs refuting C8 as stated: rates y/x and z (symbols 0 = x, 1 = y,
2 = z); the lcm of the denominators is x. -/
def c8r0 : SReaction 3 := ⟨"r0", ![0, 0, 0], ![0, 0, 0], [(1, ![0, 1, 0])], ![1, 0, 0]⟩

def c8r1 : SReaction 3 := ⟨"r1", ![0, 0, 0], ![0, 0, 0], [(1, ![0, 0, 1])], ![0, 0, 0]⟩

/-- Counterexample to C8 as stated: normalizing [y/x, z] leaves the second
rate as z (sympy collapses x*z/x automatically), whose denominator 1 is not
the lcm x of the input denominators. -/
theorem c8_cex :
    same_denom [c8r0, c8r1] = some [c8r0, c8r1]
    ∧ reduceOpt lcmMon ([c8r0, c8r1].map SReaction.den) = some ![1, 0, 0]
    ∧ c8r1.den ≠ ![1, 0, 0] := by
  decide

/-- Claim C8 (amended): after _same_denom, every output rate's denominator
divides the lcm of the input denominators (pointwise on exponents); equality
can fail because sympy's automatic power collection cancels the rewriting
against single-monomial numerators. -/
theorem c8_thm : ∀ (N : ℕ) (rs out : List (SReaction N)) (L : Mon N),
    same_denom rs = some out →
    reduceOpt lcmMon (rs.map SReaction.den) = some L →
    ∀ o ∈ out, ∀ v, o.den v ≤ L v := by
  intro N rs out L h hL
  have hle := reduceOpt_lcm_le (rs.map SReaction.den) L hL
  rw [same_denom, hL] at h
  simp only [Option.bind_eq_bind, Option.some_bind, Option.pure_def,
    Option.some_inj] at h
  subst h
  intro o ho v
  rcases List.mem_map.mp ho with ⟨r, hr, rfl⟩
  have hrden : r.den v ≤ L v := hle r.den (List.mem_map_of_mem _ hr) v
  by_cases hdL : r.den = L
  · simp only [hdL, if_pos rfl]
    exact hrden
  · simp only [if_neg hdL]
    rcases hp : pnorm r.num with _ | ⟨t, ts⟩
    · simp only [newRatePair, hp, monOne]
      omega
    · match ts with
      | [] =>
        simp only [newRatePair, hp]
        omega
      | t2 :: ts2 =>
        simp only [newRatePair, hp]
        exact hrden

/-- Witness for C8 at the concrete pair [y/x, z]. -/
theorem c8_wit : c8r0.den 0 ≤ (![1, 0, 0] : Mon 3) 0 :=
  c8_thm 3 [c8r0, c8r1] [c8r0, c8r1] ![1, 0, 0] (by decide) (by decide)
    c8r0 (by simp) 0

/-- Keys of the grouping, in first-occurrence order. -/
def firstKeys {N : ℕ} (rs : List (Reaction N)) : List (Mon N × Mon N) :=
  (rs.map rxnKey).foldl insNew []

/-- Members of the group with a given key: the input reactions with that
(reactant, product) pair, in input order. -/
def keyFilter {N : ℕ} (rs : List (Reaction N)) (k : Mon N × Mon N) : List (Reaction N) :=
  rs.filter (fun x => rxnKey x = k)

/-- Specification form of the grouping: one entry per first-occurrence key,
holding the filter of the input by that key. -/
def groupSpec {N : ℕ} (rs : List (Reaction N)) :
    List ((Mon N × Mon N) × List (Reaction N)) :=
  (firstKeys rs).map (fun k => (k, keyFilter rs k))

theorem mem_insNew {α : Type} [DecidableEq α] (l : List α) (x y : α) :
    y ∈ insNew l x ↔ y ∈ l ∨ y = x := by
  by_cases h : x ∈ l
  · simp only [insNew, if_pos h]
    constructor
    · exact Or.inl
    · rintro (hy | rfl)
      · exact hy
      · exact h
  · simp [insNew, if_neg h]

theorem insNew_of_mem {α : Type} [DecidableEq α] {l : List α} {x : α} (h : x ∈ l) :
    insNew l x = l := by
  simp [insNew, if_pos h]

theorem insNew_of_not_mem {α : Type} [DecidableEq α] {l : List α} {x : α} (h : x ∉ l) :
    insNew l x = l ++ [x] := by
  simp [insNew, if_neg h]

theorem insNew_nodup {α : Type} [DecidableEq α] {l : List α} (h : l.Nodup) (x : α) :
    (insNew l x).Nodup := by
  by_cases hx : x ∈ l
  · rw [insNew_of_mem hx]; exact h
  · rw [insNew_of_not_mem hx]
    refine List.Nodup.append h (List.nodup_singleton x) ?_
    intro a ha hax
    rw [List.mem_singleton] at hax
    exact hx (hax ▸ ha)

theorem foldl_insNew_nodup {α : Type} [DecidableEq α] :
    ∀ (ks : List α) (acc : List α), acc.Nodup → (ks.foldl insNew acc).Nodup := by
  intro ks
  induction ks with
  | nil => intro acc h; exact h
  | cons k ks ih => intro acc h; exact ih (insNew acc k) (insNew_nodup h k)

theorem mem_foldl_insNew {α : Type} [DecidableEq α] :
    ∀ (ks : List α) (acc : List α) (x : α),
      x ∈ ks.foldl insNew acc ↔ x ∈ acc ∨ x ∈ ks := by
  intro ks
  induction ks with
  | nil => intro acc x; simp
  | cons k ks ih =>
    intro acc x
    rw [List.foldl_cons, ih, mem_insNew]
    simp only [List.mem_cons]
    tauto

theorem firstKeys_nodup {N : ℕ} (rs : List (Reaction N)) : (firstKeys rs).Nodup :=
  foldl_insNew_nodup _ [] List.nodup_nil

theorem mem_firstKeys {N : ℕ} (rs : List (Reaction N)) (k : Mon N × Mon N) :
    k ∈ firstKeys rs ↔ k ∈ rs.map rxnKey := by
  rw [firstKeys, mem_foldl_insNew]
  simp

theorem groupIns_of_mem {N : ℕ} :
    ∀ (ks : List (Mon N × Mon N)) (F : Mon N × Mon N → List (Reaction N))
      (r : Reaction N), ks.Nodup → rxnKey r ∈ ks →
      groupIns (ks.map (fun k => (k, F k))) r
        = ks.map (fun k => (k, if k = rxnKey r then F k ++ [r] else F k)) := by
  intro ks
  induction ks with
  | nil => intro F r _ hm; cases hm
  | cons k0 ks ih =>
    intro F r hnd hm
    by_cases h0 : k0 = rxnKey r
    · simp only [List.map_cons, groupIns, if_pos h0, h0, if_true]
      congr 1
      have hnotin : rxnKey r ∉ ks := by
        rw [← h0]; exact (List.nodup_cons.mp hnd).1
      apply List.map_congr_left
      intro k hk
      have : ¬ k = rxnKey r := fun e => hnotin (e ▸ hk)
      simp [this]
    · have hm' : rxnKey r ∈ ks := by
        rcases List.mem_cons.mp hm with h | h
        · exact absurd h.symm h0
        · exact h
      simp only [List.map_cons, groupIns, if_neg h0]
      rw [ih F r (List.nodup_cons.mp hnd).2 hm']

theorem groupIns_of_not_mem {N : ℕ} :
    ∀ (ks : List (Mon N × Mon N)) (F : Mon N × Mon N → List (Reaction N))
      (r : Reaction N), rxnKey r ∉ ks →
      groupIns (ks.map (fun k => (k, F k))) r
        = ks.map (fun k => (k, F k)) ++ [(rxnKey r, [r])] := by
  intro ks
  induction ks with
  | nil => intro F r _; rfl
  | cons k0 ks ih =>
    intro F r hm
    have h0 : ¬ k0 = rxnKey r := fun e => hm (e ▸ List.mem_cons_self k0 ks)
    have hm' : rxnKey r ∉ ks := fun h => hm (List.mem_cons_of_mem _ h)
    simp only [List.map_cons, groupIns, if_neg h0, List.cons_append]
    rw [ih F r hm']

theorem groupRxns_eq {N : ℕ} : ∀ rs : List (Reaction N), groupRxns rs = groupSpec rs := by
  intro rs
  induction rs using List.reverseRecOn with
  | nil => rfl
  | append_singleton rs r ih =>
    have hfold : groupRxns (rs ++ [r]) = groupIns (groupRxns rs) r := by
      simp [groupRxns, List.foldl_append]
    rw [hfold, ih]
    have hfk : firstKeys (rs ++ [r]) = insNew (firstKeys rs) (rxnKey r) := by
      simp [firstKeys, List.foldl_append]
    by_cases hk : rxnKey r ∈ firstKeys rs
    · rw [groupSpec, groupIns_of_mem (firstKeys rs) (keyFilter rs) r (firstKeys_nodup rs) hk]
      rw [groupSpec, hfk, insNew_of_mem hk]
      apply List.map_congr_left
      intro k hkmem
      have hfilt : keyFilter (rs ++ [r]) k
          = keyFilter rs k ++ (if rxnKey r = k then [r] else []) := by
        simp only [keyFilter, List.filter_append]
        congr 1
        by_cases h : rxnKey r = k
        · simp [h]
        · simp [h]
      rw [hfilt]
      by_cases h : k = rxnKey r
      · simp [h]
      · have : ¬ rxnKey r = k := fun e => h e.symm
        simp [h, this]
    · rw [groupSpec, groupIns_of_not_mem (firstKeys rs) (keyFilter rs) r hk]
      rw [groupSpec, hfk, insNew_of_not_mem hk, List.map_append]
      congr 1
      · apply List.map_congr_left
        intro k hkmem
        have hne : ¬ rxnKey r = k := by
          intro e
          exact hk (e ▸ hkmem)
        simp only [keyFilter, List.filter_append]
        simp [hne]
      · have hnil : keyFilter rs (rxnKey r) = [] := by
          rw [keyFilter, List.filter_eq_nil_iff]
          intro x hx
          simp only [decide_eq_true_eq]
          intro e
          exact hk ((mem_firstKeys rs (rxnKey r)).mpr (e ▸ List.mem_map_of_mem rxnKey hx))
        simp only [List.map_cons, List.map_nil]
        rw [show keyFilter (rs ++ [r]) (rxnKey r)
            = keyFilter rs (rxnKey r) ++ keyFilter [r] (rxnKey r) from
          List.filter_append .., hnil]
        simp [keyFilter]

theorem perm_insById {N : ℕ} (r : Reaction N) :
    ∀ l : List (Reaction N), (insById r l).Perm (r :: l) := by
  intro l
  induction l with
  | nil => exact List.Perm.refl _
  | cons x xs ih =>
    by_cases h : r.reactionid ≤ x.reactionid
    · simp only [insById, if_pos h]
      exact List.Perm.refl _
    · simp only [insById, if_neg h]
      exact ((ih.cons x).trans (List.Perm.swap r x xs))

theorem perm_sortById {N : ℕ} : ∀ l : List (Reaction N), (sortById l).Perm l := by
  intro l
  induction l with
  | nil => exact List.Perm.refl _
  | cons x xs ih =>
    exact (perm_insById x (sortById xs)).trans (ih.cons x)

theorem sorted_insById {N : ℕ} (r : Reaction N) :
    ∀ l : List (Reaction N),
      l.Pairwise (fun a b => a.reactionid ≤ b.reactionid) →
      (insById r l).Pairwise (fun a b => a.reactionid ≤ b.reactionid) := by
  intro l
  induction l with
  | nil => intro _; exact List.pairwise_singleton _ r
  | cons x xs ih =>
    intro h
    rcases List.pairwise_cons.mp h with ⟨hx, hxs⟩
    by_cases hle : r.reactionid ≤ x.reactionid
    · simp only [insById, if_pos hle]
      refine List.pairwise_cons.mpr ⟨?_, h⟩
      intro b hb
      rcases List.mem_cons.mp hb with rfl | hb
      · exact hle
      · exact le_trans hle (hx b hb)
    · simp only [insById, if_neg hle]
      refine List.pairwise_cons.mpr ⟨?_, ih hxs⟩
      intro b hb
      have hb' : b ∈ r :: xs := (perm_insById r xs).mem_iff.mp hb
      rcases List.mem_cons.mp hb' with rfl | hb'
      · exact le_of_not_le hle
      · exact hx b hb'

theorem sorted_sortById {N : ℕ} :
    ∀ l : List (Reaction N),
      (sortById l).Pairwise (fun a b => a.reactionid ≤ b.reactionid) := by
  intro l
  induction l with
  | nil => exact List.Pairwise.nil
  | cons x xs ih => exact sorted_insById x _ ih

theorem toMv_single {N : ℕ} (t : ℤ × Mon N) : toMv [t] = termMv t := by
  rw [toMv_cons, toMv_nil, add_zero]

/-- Value of the Python `sum` of rates all of the shape term/denominator:
folding `ratAdd` accumulates numerators over the shared denominator. -/
theorem sumRates_aux {N : ℕ} :
    ∀ (l : List (Reaction N)) (d : Poly N) (ts : List (ℤ × Mon N))
      (acc : Rat2 N) (Q : MvPolynomial (Fin N) ℤ),
      l.map Reaction.rate = ts.map (fun t => (⟨[t], d⟩ : Rat2 N)) →
      toMv acc.num * toMv d = Q * toMv acc.den →
      toMv ((l.foldl (fun a m => ratAdd a m.rate) acc).num) * toMv d
        = (Q + toMv ts) * toMv ((l.foldl (fun a m => ratAdd a m.rate) acc).den) := by
  intro l
  induction l with
  | nil =>
    intro d ts acc Q hmap hinv
    have : ts = [] := by
      cases ts with
      | nil => rfl
      | cons t ts => simp at hmap
    subst this
    simpa [toMv_nil] using hinv
  | cons x l ih =>
    intro d ts acc Q hmap hinv
    cases ts with
    | nil => simp at hmap
    | cons t ts =>
      simp only [List.map_cons, List.cons.injEq] at hmap
      obtain ⟨hx, hrest⟩ := hmap
      simp only [List.foldl_cons]
      have hstep : toMv ((ratAdd acc x.rate).num) * toMv d
          = (Q + termMv t) * toMv ((ratAdd acc x.rate).den) := by
        rw [hx]
        simp only [ratAdd, toMv_padd, toMv_pmul, toMv_single]
        calc (toMv acc.num * toMv d + termMv t * toMv acc.den) * toMv d
            = (toMv acc.num * toMv d) * toMv d
              + termMv t * toMv acc.den * toMv d := by ring
          _ = (Q * toMv acc.den) * toMv d + termMv t * toMv acc.den * toMv d := by
              rw [hinv]
          _ = (Q + termMv t) * (toMv acc.den * toMv d) := by ring
      have hfin := ih d ts (ratAdd acc x.rate) (Q + termMv t) hrest hstep
      rw [toMv_cons, ← add_assoc]
      exact hfin

theorem groupRxns_const_aux {N : ℕ} :
    ∀ (xs : List (Reaction N)) (k0 : Mon N × Mon N) (ms : List (Reaction N)),
      (∀ x ∈ xs, rxnKey x = k0) →
      List.foldl groupIns [(k0, ms)] xs = [(k0, ms ++ xs)] := by
  intro xs
  induction xs with
  | nil => intro k0 ms _; simp
  | cons y ys ih =>
    intro k0 ms hk
    have hy : rxnKey y = k0 := hk y (List.mem_cons_self y ys)
    have : groupIns [(k0, ms)] y = [(k0, ms ++ [y])] := by
      simp [groupIns, hy]
    rw [List.foldl_cons, this, ih k0 (ms ++ [y])
      (fun x hx => hk x (List.mem_cons_of_mem _ hx))]
    simp

theorem groupRxns_const {N : ℕ} (l : List (Reaction N)) (k0 : Mon N × Mon N)
    (hk : ∀ x ∈ l, rxnKey x = k0) (hne : l ≠ []) :
    groupRxns l = [(k0, l)] := by
  match l with
  | [] => exact absurd rfl hne
  | x :: xs =>
    have hx : rxnKey x = k0 := hk x (List.mem_cons_self x xs)
    have h1 : groupIns [] x = [(k0, [x])] := by simp [groupIns, hx]
    rw [groupRxns, List.foldl_cons, h1,
      groupRxns_const_aux xs k0 [x] (fun y hy => hk y (List.mem_cons_of_mem _ hy))]
    simp

/-- The single merged reaction that merge_reactions ∘ split_by_addend
produces for a non-self-loop reaction. -/
def mergedOf {N : ℕ} (r : Reaction N) : Reaction N :=
  mkReaction (joinIds (split_reaction r)) r.reactant r.product
    (ratCancel (sumRates (split_reaction r)))

/-- Self-loop reaction A -> A with two-addend rate k1*A + k2*A (symbols
0 = k1, 1 = k2, 2 = A): the merged group is dropped entirely. -/
def c2r : Reaction 3 :=
  mkReaction "r" ![0, 0, 1] ![0, 0, 1] ⟨[(1, ![1, 0, 1]), (1, ![0, 1, 1])], pone 3⟩

/-- Counterexample to C2 as stated: for a self-loop reaction with a
two-addend numerator, merge_reactions(split_by_addend(r)) is empty, not a
one-element list equal to r. -/
theorem c2_cex :
    merge_reactions (split_reaction c2r) = []
    ∧ 2 ≤ (pnorm c2r.rate.num).length
    ∧ c2r.reactant = c2r.product := by
  decide

/-- Claim C2 (amended): for a reaction whose expanded rate numerator has at
least two addends and whose reactant differs from its product,
merge_reactions(split_by_addend(r)) is exactly one reaction, equal to r
under Reaction equality.  (For reactant = product the group is dropped and
the result is empty.) -/
theorem c2_thm : ∀ (N : ℕ) (r : Reaction N),
    2 ≤ (pnorm r.rate.num).length → r.reactant ≠ r.product →
    merge_reactions (split_reaction r) = [mergedOf r]
    ∧ reactionEq (mergedOf r) r := by
  intro N r hlen hne
  have hsplit : split_reaction r
      = (pnorm r.rate.num).enum.map (fun p =>
          mkReaction (r.reactionid ++ "_" ++ toString p.1) r.reactant r.product
            ⟨[p.2], r.rate.den⟩) := by
    simp only [split_reaction, if_pos hlen]
  have hkeys : ∀ x ∈ split_reaction r, rxnKey x = (r.reactant, r.product) := by
    rw [hsplit]
    intro x hx
    rcases List.mem_map.mp hx with ⟨p, _, rfl⟩
    rfl
  have hlen2 : (split_reaction r).length = (pnorm r.rate.num).length := by
    rw [hsplit]
    simp [List.enum_length]
  have hnenil : split_reaction r ≠ [] := by
    apply List.ne_nil_of_length_pos
    omega
  have hgroup : groupRxns (split_reaction r)
      = [((r.reactant, r.product), split_reaction r)] :=
    groupRxns_const _ _ hkeys hnenil
  have hkne : ((r.reactant, r.product) : Mon N × Mon N).1
      ≠ ((r.reactant, r.product) : Mon N × Mon N).2 := hne
  have hmerge : merge_reactions (split_reaction r) = [mergedOf r] := by
    rw [merge_reactions, hgroup]
    simp only [List.filterMap, mergeF, if_pos hkne]
    rfl
  refine ⟨hmerge, rfl, rfl, ?_⟩
  have hrates : (split_reaction r).map Reaction.rate
      = (pnorm r.rate.num).map (fun t => (⟨[t], r.rate.den⟩ : Rat2 N)) := by
    rw [hsplit, List.map_map]
    have : ((pnorm r.rate.num).enum.map Prod.snd).map
        (fun t => (⟨[t], r.rate.den⟩ : Rat2 N))
        = (pnorm r.rate.num).map (fun t => (⟨[t], r.rate.den⟩ : Rat2 N)) := by
      rw [List.enum_map_snd]
    rw [← this, List.map_map]
    rfl
  have hbase : toMv (ratZero N).num * toMv r.rate.den = 0 * toMv (ratZero N).den := by
    simp [ratZero, pzero, toMv_nil]
  have hS := sumRates_aux (split_reaction r) r.rate.den (pnorm r.rate.num)
    (ratZero N) 0 hrates hbase
  rw [toMv_pnorm, zero_add] at hS
  rw [rateEqZero]
  show toMv (ratSub (mergedOf r).rate r.rate).num = 0
  simp only [mergedOf, mkReaction, ratCancel, ratSub, sumRates, toMv_padd,
    toMv_pmul, toMv_pneg, toMv_pnorm]
  linear_combination hS

/-- Non-self-loop reaction A -> 0 with rate k1*A + k2*A. -/
def c2w : Reaction 3 :=
  mkReaction "w" ![0, 0, 1] ![0, 0, 0] ⟨[(1, ![1, 0, 1]), (1, ![0, 1, 1])], pone 3⟩

/-- Witness for C2 at the concrete reaction c2w. -/
theorem c2_wit :
    merge_reactions (split_reaction c2w) = [mergedOf c2w]
    ∧ reactionEq (mergedOf c2w) c2w :=
  c2_thm 3 c2w (by decide) (by decide)

theorem map_rxnKey_filterMap {N : ℕ} :
    ∀ g : List ((Mon N × Mon N) × List (Reaction N)),
      (g.filterMap mergeF).map rxnKey
        = (g.map Prod.fst).filter (fun k => decide (k.1 ≠ k.2)) := by
  intro g
  induction g with
  | nil => rfl
  | cons e g ih =>
    by_cases h : e.1.1 ≠ e.1.2
    · have hfe : mergeF e
          = some (mkReaction (joinIds e.2) e.1.1 e.1.2 (ratCancel (sumRates e.2))) := by
        simp [mergeF, h]
      rw [List.filterMap_cons, hfe, List.map_cons, List.map_cons, ih,
        List.filter_cons_of_pos (by simpa using h)]
      rfl
    · have hfe : mergeF e = none := by simp [mergeF, h]
      rw [List.filterMap_cons, hfe, List.map_cons, ih,
        List.filter_cons_of_neg (by simpa using h)]

/-- First concrete reaction A -> B with rate k1*A (symbols 0 = k1, 1 = k2,
2 = A, 3 = B). -/
def c7r1 : Reaction 4 :=
  mkReaction "r1" ![0, 0, 1, 0] ![0, 0, 0, 1] ⟨[(1, ![1, 0, 1, 0])], pone 4⟩

/-- Second concrete reaction A -> B with rate k2*A. -/
def c7r2 : Reaction 4 :=
  mkReaction "r2" ![0, 0, 1, 0] ![0, 0, 0, 1] ⟨[(1, ![0, 1, 1, 0])], pone 4⟩

/-- Their merge: concatenated id, cancelled summed rate. -/
def c7m : Reaction 4 :=
  mkReaction "r1r2" ![0, 0, 1, 0] ![0, 0, 0, 1] (ratCancel (sumRates [c7r1, c7r2]))

/-- The expression (k1 + k2)*A expanded: k1*A + k2*A. -/
def c7target : Rat2 4 := ⟨[(1, ![1, 0, 1, 0]), (1, ![0, 1, 1, 0])], pone 4⟩

/-- Claim C7: merge_reactions groups by (reactant, product) in
first-occurrence order, drops self-loop groups entirely, emits per group one
reaction with the concatenated member ids (input order), the shared
complexes, and the cancelled sum of the member rates, and sorts the result
by id; in particular merging A -> B with rates k1*A and k2*A gives one
reaction with concatenated id and rate (k1+k2)*A. -/
theorem c7_thm :
    (∀ (N : ℕ) (rs : List (Reaction N)),
      (merge_reactions rs).Pairwise (fun a b => a.reactionid ≤ b.reactionid)
      ∧ ((merge_reactions rs).map rxnKey).Nodup
      ∧ (∀ o ∈ merge_reactions rs,
          o.reactant ≠ o.product
          ∧ keyFilter rs (rxnKey o) ≠ []
          ∧ o.reactionid = joinIds (keyFilter rs (rxnKey o))
          ∧ o.rate = ratCancel (sumRates (keyFilter rs (rxnKey o)))
          ∧ o.kinetic_param = ratDiv o.rate (maRat o.reactant))
      ∧ (∀ r ∈ rs, r.reactant ≠ r.product →
          ∃ o ∈ merge_reactions rs, rxnKey o = rxnKey r))
    ∧ (merge_reactions [c7r1, c7r2] = [c7m]
       ∧ rateEqZero (ratSub c7m.rate c7target)) := by
  constructor
  · intro N rs
    refine ⟨sorted_sortById _, ?_, ?_, ?_⟩
    · rw [merge_reactions]
      rw [(List.Perm.map rxnKey (perm_sortById _)).nodup_iff]
      rw [map_rxnKey_filterMap]
      apply List.Nodup.filter
      rw [groupRxns_eq, groupSpec, List.map_map]
      have : (Prod.fst ∘ fun k => (k, keyFilter rs k)) = id := rfl
      rw [this, List.map_id]
      exact firstKeys_nodup rs
    · intro o ho
      have ho2 : o ∈ (groupRxns rs).filterMap mergeF := (perm_sortById _).subset ho
      rcases List.mem_filterMap.mp ho2 with ⟨e, he, hfe⟩
      rw [groupRxns_eq] at he
      rcases List.mem_map.mp he with ⟨k, hkmem, rfl⟩
      by_cases hk12 : k.1 ≠ k.2
      · rw [mergeF, if_pos hk12, Option.some_inj] at hfe
        subst hfe
        have hko : rxnKey (mkReaction (joinIds (keyFilter rs k)) k.1 k.2
            (ratCancel (sumRates (keyFilter rs k)))) = k := Prod.mk.eta
        rw [hko]
        refine ⟨hk12, ?_, rfl, rfl, rfl⟩
        rcases List.mem_map.mp ((mem_firstKeys rs k).mp hkmem) with ⟨x, hx, hxk⟩
        have : x ∈ keyFilter rs k :=
          List.mem_filter.mpr ⟨hx, by simp [hxk]⟩
        exact List.ne_nil_of_mem this
      · rw [mergeF, if_neg hk12] at hfe
        cases hfe
    · intro r hr hner
      have hk : rxnKey r ∈ firstKeys rs :=
        (mem_firstKeys rs _).mpr (List.mem_map_of_mem rxnKey hr)
      have he : (rxnKey r, keyFilter rs (rxnKey r)) ∈ groupSpec rs :=
        List.mem_map_of_mem _ hk
      have hne12 : (rxnKey r).1 ≠ (rxnKey r).2 := hner
      have hfe : mergeF (rxnKey r, keyFilter rs (rxnKey r))
          = some (mkReaction (joinIds (keyFilter rs (rxnKey r))) (rxnKey r).1
              (rxnKey r).2 (ratCancel (sumRates (keyFilter rs (rxnKey r))))) := by
        simp only [mergeF, if_pos hne12]
      have hmem : mkReaction (joinIds (keyFilter rs (rxnKey r))) (rxnKey r).1
          (rxnKey r).2 (ratCancel (sumRates (keyFilter rs (rxnKey r))))
          ∈ (groupRxns rs).filterMap mergeF := by
        rw [groupRxns_eq]
        exact List.mem_filterMap.mpr ⟨_, he, hfe⟩
      refine ⟨_, (perm_sortById _).mem_iff.mpr hmem, ?_⟩
      exact Prod.mk.eta
  · constructor
    · decide
    · have hrates : ([c7r1, c7r2].map Reaction.rate)
          = (([(1, ![1, 0, 1, 0]), (1, ![0, 1, 1, 0])] : List (ℤ × Mon 4)).map
              (fun t => (⟨[t], pone 4⟩ : Rat2 4))) := rfl
      have hbase : toMv (ratZero 4).num * toMv (pone 4)
          = 0 * toMv (ratZero 4).den := by
        simp [ratZero, pzero, toMv_nil]
      have hS := sumRates_aux [c7r1, c7r2] (pone 4)
        [(1, ![1, 0, 1, 0]), (1, ![0, 1, 1, 0])] (ratZero 4) 0 hrates hbase
      rw [toMv_pone, mul_one, zero_add] at hS
      rw [rateEqZero]
      show toMv (ratSub c7m.rate c7target).num = 0
      simp only [c7m, c7target, mkReaction, ratCancel, ratSub, sumRates,
        toMv_padd, toMv_pmul, toMv_pneg, toMv_pnorm, toMv_pone]
      linear_combination hS

/-- Witness for C7 at the merged reaction of the concrete pair. -/
theorem c7_wit :
    c7m.reactant ≠ c7m.product
    ∧ keyFilter [c7r1, c7r2] (rxnKey c7m) ≠ []
    ∧ c7m.reactionid = joinIds (keyFilter [c7r1, c7r2] (rxnKey c7m))
    ∧ c7m.rate = ratCancel (sumRates (keyFilter [c7r1, c7r2] (rxnKey c7m)))
    ∧ c7m.kinetic_param = ratDiv c7m.rate (maRat c7m.reactant) :=
  (c7_thm.1 4 [c7r1, c7r2]).2.2.1 c7m (by decide)

end Crnpy
